import Mathlib

/-!
Verification development for the Realicrenamebot repository.

The Python source is embedded shallowly: pure helpers become Lean functions
on `String` / `List Char` / `Nat` / `Int`; effectful code (download, rename,
metadata write, message send, sqlite access) is modelled by passing the
outcome of each external call explicitly as a parameter, while the control
flow around those calls is translated line by line from the source.

Sources embedded here:
  * bot/utils.py      (TextUtils.sanitize_filename, FileUtils.get_file_extension,
                       FileUtils.format_file_size, TimeUtils.format_duration,
                       ValidationUtils.validate_format_template)
  * file_manager.py   (FileManager.generate_filename, rename_file, process_file,
                       validate_file)
  * bot/database.py   (Database.check_rate_limit)
  * bot/handlers.py   (handle_broadcast_message, handle_manual_filename,
                       handle_custom_format, handle_file size check)
  * config.py         (Config.MAX_FILE_SIZE default)
-/

/-! ### Characters used by `TextUtils.sanitize_filename` (bot/utils.py 87-113) -/

/-- The nine characters of `invalid_chars = '<>:"/\\|?*'` in the source. -/
def isInvalidChar (c : Char) : Bool :=
  c = '<' ∨ c = '>' ∨ c = ':' ∨ c = '"' ∨ c = '/' ∨ c = '\\' ∨ c = '|' ∨ c = '?' ∨ c = '*'

/-- Characters collapsed by `re.sub(r'[ _]+', '_', filename)`. -/
def isSepChar (c : Char) : Bool := c = ' ' ∨ c = '_'

/-- Characters removed at both ends by `filename.strip(' .')`. -/
def isStripChar (c : Char) : Bool := c = ' ' ∨ c = '.'

/-- Step 1 of `sanitize_filename`: each invalid character is replaced by `'_'`. -/
def replInvalid (c : Char) : Char := if isInvalidChar c then '_' else c

/-- Step 2 of `sanitize_filename`: `re.sub(r'[ _]+', '_', filename)` — every
maximal run of spaces/underscores becomes a single underscore.  A separator
whose next character is also a separator is dropped; the last separator of a
run is emitted as `'_'`. -/
def collapseSep : List Char → List Char
  | [] => []
  | c :: cs =>
    if isSepChar c then
      match cs with
      | [] => ['_']
      | c2 :: _ => if isSepChar c2 then collapseSep cs else '_' :: collapseSep cs
    else c :: collapseSep cs

/-- Step 3 of `sanitize_filename`: Python `str.strip(' .')` — remove leading and
trailing characters belonging to the strip set. -/
def pyStrip (cs : List Char) : List Char :=
  (((cs.dropWhile isStripChar).reverse.dropWhile isStripChar)).reverse

/-- `True` on characters that are neither `'.'` nor `'/'`; scanning a reversed
path, these are the characters sitting after the last dot/slash. -/
def notDotSlash (c : Char) : Bool := c ≠ '.' ∧ c ≠ '/'

/-- CPython `posixpath.splitext` on a list of characters.  The extension starts
at the last `'.'` that lies after the last `'/'`, provided at least one non-dot
character stands between them (the leading-dots rule of `genericpath._splitext`);
otherwise the extension is empty. -/
def pySplitext (cs : List Char) : List Char × List Char :=
  match cs.reverse.dropWhile notDotSlash with
  | [] => (cs, [])
  | c :: before =>
    if c = '.' ∧ (before.takeWhile (fun b => b ≠ '/')).any (fun b => b ≠ '.') then
      (before.reverse, '.' :: (cs.reverse.takeWhile notDotSlash).reverse)
    else (cs, [])

/-- Step 5 of `sanitize_filename`: `name, ext = os.path.splitext(filename);
if len(name) > 200: name = name[:200]; return name + ext`. -/
def truncStem (cs : List Char) : List Char :=
  (if (pySplitext cs).1.length > 200 then (pySplitext cs).1.take 200
   else (pySplitext cs).1) ++ (pySplitext cs).2

/-- `TextUtils.sanitize_filename` (bot/utils.py 87-113) on a character list. -/
def sanitizeCore (cs : List Char) : List Char :=
  if cs = [] then "unnamed_file".data
  else
    let f3 := pyStrip (collapseSep (cs.map replInvalid))
    truncStem (if f3 = [] then "unnamed_file".data else f3)

/-- `TextUtils.sanitize_filename` (bot/utils.py 87-113). -/
def sanitize_filename (s : String) : String := String.mk (sanitizeCore s.data)

/-! ### Decimal rendering (Python `str(int)` / f-string interpolation of ints) -/

/-- ASCII digit for `n < 10`. -/
def decDigit (n : Nat) : Char := Char.ofNat (48 + n)

/-- Fuel-driven decimal digits of `n`, most significant first. -/
def natDecAux : Nat → Nat → List Char
  | 0, _ => []
  | fuel + 1, n =>
    if n < 10 then [decDigit n] else natDecAux fuel (n / 10) ++ [decDigit (n % 10)]

/-- Decimal rendering of a natural number, as Python renders an `int`. -/
def natDecimal (n : Nat) : String := String.mk (natDecAux (n + 1) n)

/-- Python `f"{m:02d}"` for `m < 100`. -/
def pad2 (n : Nat) : String := if n < 10 then "0" ++ natDecimal n else natDecimal n

/-! ### `TimeUtils.format_duration` (bot/utils.py 217-229), for whole seconds.
The source accepts a float; durations here are modelled as whole seconds, on
which Python's `//` and `%` agree with `Nat` division. -/

def format_duration (seconds : Nat) : String :=
  if seconds = 0 then "0:00"   -- `if seconds <= 0` in the source; `= 0` on Nat
  else
    let hours := seconds / 3600
    let minutes := (seconds % 3600) / 60
    let secs := seconds % 60
    if hours > 0 then natDecimal hours ++ ":" ++ pad2 minutes ++ ":" ++ pad2 secs
    else natDecimal minutes ++ ":" ++ pad2 secs

/-! ### `FileUtils.format_file_size` (bot/utils.py 16-27).
The source divides a float by 1024 up to four times and prints `f"{v:.1f}"`.
Here the running value is kept exactly as the fraction `n / 1024^i` and the
one-decimal rendering rounds half-to-even, which is Python's rounding of an
exactly-representable value; double-precision artifacts are out of scope. -/

/-- Round `num / den` to the nearest integer, ties to even. -/
def roundHalfEven (num den : Nat) : Nat :=
  let q := num / den
  let r := num % den
  if 2 * r > den then q + 1
  else if 2 * r < den then q
  else if q % 2 = 0 then q else q + 1

/-- Python `f"{(num/den):.1f}"` for the exact rational `num/den`. -/
def fmtOneDecimal (num den : Nat) : String :=
  let t := roundHalfEven (10 * num) den
  natDecimal (t / 10) ++ "." ++ natDecimal (t % 10)

def format_file_size (size_bytes : Nat) : String :=
  if size_bytes = 0 then "0 B"
  else
    let i := if size_bytes ≥ 1024 ^ 4 then 4
             else if size_bytes ≥ 1024 ^ 3 then 3
             else if size_bytes ≥ 1024 ^ 2 then 2
             else if size_bytes ≥ 1024 then 1 else 0
    let unit := if i = 4 then "TB" else if i = 3 then "GB"
                else if i = 2 then "MB" else if i = 1 then "KB" else "B"
    fmtOneDecimal size_bytes (1024 ^ i) ++ " " ++ unit

/-! ### `FileUtils.get_file_extension` (bot/utils.py 30-34) -/

/-- Python `str.lower()` restricted to the per-character mapping. -/
def pyLower (s : String) : String := String.mk (s.data.map Char.toLower)

/-- Python `str.endswith` (empty suffix matches everything). -/
def pyEndsWith (s suffix : String) : Bool := suffix.data.isSuffixOf s.data

def get_file_extension (filename : String) : String :=
  if filename = "" then ""
  else pyLower (String.mk (pySplitext filename.data).2)

/-! ### `FileManager.generate_filename` (file_manager.py 521-557) -/

/-- The file-description dictionary as read by `generate_filename`:
`file_info.get(key, default)` is `Option.getD`; an absent key is `none`. -/
structure FileInfo where
  title : Option String
  artist : Option String
  album : Option String
  genre : Option String
  year : Option String
  ftype : Option String      -- the 'type' key
  bitrate : Option Nat
  codec : Option String
  resolution : Option String
  duration : Option Nat
  size : Option Nat
  extension : Option String

/-- Python `str.replace(pat, repl)`: left-to-right, non-overlapping.  Fuel is
the length of the subject; every step consumes at least one character since
the patterns used (`"{title}"` …) are never empty. -/
def replaceAllAux (pat repl : List Char) : Nat → List Char → List Char
  | 0, cs => cs
  | fuel + 1, cs =>
    if pat.isPrefixOf cs then repl ++ replaceAllAux pat repl fuel (cs.drop pat.length)
    else
      match cs with
      | [] => []
      | c :: cs' => c :: replaceAllAux pat repl fuel cs'

def pyReplace (s pat repl : String) : String :=
  String.mk (replaceAllAux pat.data repl.data s.data.length s.data)

/-- The `variables` dictionary of `generate_filename` (file_manager.py 525-538),
in insertion order.  Note `'author'` reads the `'artist'` key in the source. -/
def templateVars (fi : FileInfo) : List (String × String) :=
  [("title", fi.title.getD "Untitled"),
   ("artist", fi.artist.getD "Unknown Artist"),
   ("author", fi.artist.getD "Unknown Author"),
   ("album", fi.album.getD "Unknown Album"),
   ("genre", fi.genre.getD "Unknown Genre"),
   ("year", fi.year.getD "Unknown Year"),
   ("audio", if fi.ftype = some "audio" then natDecimal (fi.bitrate.getD 0) ++ "kbps" else ""),
   ("video", if fi.ftype = some "video" then fi.resolution.getD "" else ""),
   ("codec", fi.codec.getD ""),
   ("resolution", fi.resolution.getD ""),
   ("duration", format_duration (fi.duration.getD 0)),
   ("size", format_file_size (fi.size.getD 0))]

/-- The last step of `generate_filename`: append the original extension unless
the name already ends with it, case-insensitively (file_manager.py 549-551). -/
def appendExtension (filename original_ext : String) : String :=
  if ¬ (pyEndsWith (pyLower filename) (pyLower original_ext)) then filename ++ original_ext
  else filename

/-- `FileManager.generate_filename` (file_manager.py 521-557): substitute each
`{var}` placeholder, sanitize, then append the original extension unless the
name already ends with it (case-insensitively). -/
def generate_filename (fi : FileInfo) (format_template : String) : String :=
  appendExtension
    (sanitize_filename ((templateVars fi).foldl
      (fun acc kv => pyReplace acc ("\x7b" ++ kv.1 ++ "\x7d") kv.2) format_template))
    (fi.extension.getD "")

/-- The file description of the C2 scenario. -/
def songInfo : FileInfo :=
  { title := some "Song", artist := some "Unknown Artist", album := none,
    genre := none, year := none, ftype := none, bitrate := none, codec := none,
    resolution := none, duration := none, size := none, extension := some ".mp3" }

/-! ### `FileManager.rename_file` (file_manager.py 213-232).
The filesystem is modelled by the list of paths that currently exist in the
destination directory.  The source computes `base_name, ext =
os.path.splitext(new_name)` once and then tries `f"{base_name}_{counter}{ext}"`
for `counter = 1, 2, …` while the candidate path exists.  The unbounded
`while` loop is run with fuel `existing.length + 1`, which is proved
sufficient below (`rename_file_spec`). -/

/-- Candidate `f"{base_name}_{counter}{ext}"`. -/
def mkCand (base ext : String) (counter : Nat) : String :=
  base ++ "_" ++ natDecimal counter ++ ext

def renameLoop (existing : List String) (base ext : String) : Nat → Nat → String
  | 0, counter => mkCand base ext counter
  | fuel + 1, counter =>
    let cand := mkCand base ext counter
    if cand ∈ existing then renameLoop existing base ext fuel (counter + 1) else cand

/-- `FileManager.rename_file`, reduced to the name chosen in the destination
directory: the final name it renames the downloaded file to. -/
def rename_file (existing : List String) (new_name : String) : String :=
  if new_name ∈ existing then
    let p := pySplitext new_name.data
    renameLoop existing (String.mk p.1) (String.mk p.2) (existing.length + 1) 1
  else new_name

/-! ### `FileManager.process_file` (file_manager.py 32-98).
External effects are passed in as outcomes: `downloaded` is the result of
`download_file` (`none` = failure), `existing` the directory contents seen by
`rename_file`, `renameOk` whether the `os.rename` call itself succeeds, and
`metadataOk` the value returned by `process_metadata` — which the source
discards (line 71 awaits it without using the result, and `process_metadata`
catches every exception internally, returning a bool).  Likewise
`Database.add_file_history` (database.py 286-314) catches every exception and
returns a bool, passed here as `historyOk` and equally unused. -/

structure JobResult where
  success : Bool
  error : Option String
  file_path : Option String
  filename : Option String
deriving DecidableEq

def process_file (downloaded : Option String) (existing : List String)
    (renameOk : Bool) (fi : FileInfo) (custom_format : String)
    (auto_thumbnail metadataOk historyOk : Bool) : JobResult :=
  match downloaded with
  | none => { success := false, error := some "Failed to download file",
              file_path := none, filename := none }
  | some _ =>
    let new_filename := generate_filename fi custom_format
    if renameOk then
      let renamed_path := rename_file existing new_filename
      let _ := if auto_thumbnail then metadataOk else true
      let _ := historyOk
      { success := true, error := none,
        file_path := some renamed_path, filename := some new_filename }
    else
      { success := false, error := some "Failed to rename file",
        file_path := none, filename := none }

/-! ### `Database.check_rate_limit` (bot/database.py 442-493).
Timestamps are integers (seconds); the stored row is `(request_count,
window_start)`.  The source computes `window_start = now -
timedelta(seconds=window_seconds)` and resets iff the stored start is strictly
older than that. -/

structure RateLimitWindow where
  request_count : Nat
  window_start : Int
deriving DecidableEq

/-- The body of `check_rate_limit` once the stored row (or its absence) is
known: returns the decision and the row afterwards. -/
def check_rate_limit (row : Option RateLimitWindow) (now : Int)
    (max_requests : Nat) (window_seconds : Int) : Bool × RateLimitWindow :=
  match row with
  | none => (true, ⟨1, now⟩)                                -- first request
  | some r =>
    if r.window_start < now - window_seconds then (true, ⟨1, now⟩)  -- reset window
    else if r.request_count ≥ max_requests then (false, r)
    else (true, ⟨r.request_count + 1, r.window_start⟩)

/-- `check_rate_limit` including the enclosing `try/except`: a storage failure
(`.error`) is caught, logged, and the request is allowed (database.py 489-491). -/
def check_rate_limit_db (fetch : Except String (Option RateLimitWindow))
    (now : Int) (max_requests : Nat) (window_seconds : Int) : Bool :=
  match fetch with
  | .error _ => true                                        -- Allow on error
  | .ok row => (check_rate_limit row now max_requests window_seconds).1

/-- A sequence of requests by one user at the given times, against the default
config (5 requests / 60 seconds): the decisions, and the final stored row. -/
def rateLimitRun : List Int → Option RateLimitWindow → List Bool × Option RateLimitWindow
  | [], row => ([], row)
  | t :: ts, row =>
    let step := check_rate_limit row t 5 60
    let rest := rateLimitRun ts (some step.2)
    (step.1 :: rest.1, rest.2)

/-! ### `BotHandlers.handle_broadcast_message` (bot/handlers.py 675-723) /
`AdminHandlers.send_broadcast` (bot/admin.py 57-123).
Both iterate the recipient list sequentially; each send sits in its own
`try/except`, a success bumps `success_count`, a failure bumps
`failed_count`.  The transport outcome per recipient is the `deliver`
oracle.  The loop also records every attempted recipient, in order. -/

def broadcastLoop (deliver : Int → Bool) :
    List Int → Nat → Nat → List Int → Nat × Nat × List Int
  | [], successCount, failedCount, attempted => (successCount, failedCount, attempted)
  | uid :: rest, successCount, failedCount, attempted =>
    if deliver uid then broadcastLoop deliver rest (successCount + 1) failedCount (attempted ++ [uid])
    else broadcastLoop deliver rest successCount (failedCount + 1) (attempted ++ [uid])

/-- Returns `(success_count, failed_count, recipients attempted in order)`. -/
def send_broadcast (recipients : List Int) (deliver : Int → Bool) : Nat × Nat × List Int :=
  broadcastLoop deliver recipients 0 0 []

/-! ### Conversation-layer failure paths (bot/handlers.py 558-673).
`user_states` is modelled from the viewpoint of one user: `none` is Idle,
`some p` an Awaiting entry.  `handle_manual_filename` first calls
`FileUtils.clean_filename` — a function absent from the repository, modelled
by the `cleanFilename` oracle whose empty result is Python-falsy, matching
`if not clean_filename` — then fetches user data, and only then enters the
`try/finally` whose `finally` pops the state.  The job itself is the
`jobOutcome` oracle: `.ok r` a returned `JobResult`, `.error e` an exception
caught by the `except` branch; both reach the `finally`. -/

inductive SessionAction
  | awaitingFilename
  | awaitingFormat
  | awaitingBroadcast
deriving DecidableEq

structure PendingState where
  action : SessionAction
  hasFileObj : Bool
deriving DecidableEq

/-- `BotHandlers.handle_manual_filename`: the user's `user_states` entry after
the handler runs. -/
def handle_manual_filename (state : Option PendingState)
    (cleanFilename : String → String) (input : String)
    (userData : Option Unit) (jobOutcome : Except String JobResult) :
    Option PendingState :=
  match state with
  | none => none                                   -- "No file to rename" → return
  | some p =>
    if ¬ p.hasFileObj then some p                  -- "No file to rename" → return
    else if cleanFilename input = "" then some p   -- "Invalid filename" → return
    else
      match userData with
      | none => some p                             -- "User data not found" → return
      | some _ =>
        let _ := jobOutcome                        -- success, failure or crash
        none                                       -- finally: user_states.pop

/-- `BotHandlers.handle_custom_format` (bot/handlers.py 649-673):
`TextUtils.is_valid_format_template` is also absent from the repository; its
verdict enters as `templateValid`.  Only the valid branch reaches the final
`user_states.pop`. -/
def handle_custom_format (state : Option PendingState)
    (templateValid : Bool) (updateOk : Bool) : Option PendingState :=
  if ¬ templateValid then state                    -- "Invalid Format Template" → return
  else
    let _ := updateOk                              -- reply differs, state handling does not
    none                                           -- user_states.pop

/-! ### File-size admission (bot/handlers.py 312-318, file_manager.py 441-465,
config.py 32). -/

/-- `Config.MAX_FILE_SIZE` default: `5 * 1024 * 1024 * 1024`. -/
def MAX_FILE_SIZE : Nat := 5 * 1024 * 1024 * 1024

/-- The oversize test of `handle_file` line 313: `file_obj.file_size >
self.config.MAX_FILE_SIZE` rejects the file. -/
def handle_file_size_rejected (file_size max_size : Nat) : Bool :=
  file_size > max_size

/-- The extensions accepted by `validate_file` (file_manager.py 452-456). -/
def supported_exts : List String :=
  [".mp4", ".avi", ".mkv", ".mov", ".wmv", ".flv", ".webm",
   ".mp3", ".flac", ".aac", ".ogg", ".wav", ".m4a",
   ".pdf", ".doc", ".docx", ".txt", ".zip", ".rar", ".7z"]

/-- `FileManager.validate_file` (file_manager.py 441-465).  `file_size` is
`none` when the transport supplies no size; `if file_obj.file_size and
file_obj.file_size > MAX` skips the check for `None` and `0` alike. -/
def validate_file (file_size : Option Nat) (file_name : Option String)
    (max_size : Nat) : Bool × String :=
  let sizeKnown : Bool := match file_size with
    | some s => s ≠ 0
    | none => false
  if sizeKnown && file_size.getD 0 > max_size then
    (false, "File too large. Maximum size: " ++ format_file_size max_size)
  else
    let ext := pyLower (get_file_extension (file_name.getD ""))
    if ext ∈ supported_exts then (true, "Valid file")
    else (false, "Unsupported file type: " ++ ext)

/-! ### `ValidationUtils.validate_format_template` (bot/utils.py 308-327).
`re.findall(r'\x7b(\w+)\x7d', template)` is the left-to-right scan for
`{word}` groups; `\w` is alphanumeric-or-underscore (ASCII, as these templates
are). -/

def isWordChar (c : Char) : Bool :=
  ('a' ≤ c ∧ c ≤ 'z') ∨ ('A' ≤ c ∧ c ≤ 'Z') ∨ ('0' ≤ c ∧ c ≤ '9') ∨ c = '_'

/-- Leftmost non-overlapping matches of `\x7b(\w+)\x7d`, returning the groups. -/
def findPlaceholders : Nat → List Char → List String
  | 0, _ => []
  | _ + 1, [] => []
  | fuel + 1, c :: cs =>
    if c = '{' then
      let w := cs.takeWhile isWordChar
      let rest := cs.dropWhile isWordChar
      match rest with
      | '}' :: rest' =>
        if w ≠ [] then String.mk w :: findPlaceholders fuel rest'
        else findPlaceholders fuel cs
      | _ => findPlaceholders fuel cs
    else findPlaceholders fuel cs

def valid_vars : List String :=
  ["title", "artist", "author", "album", "genre", "year",
   "audio", "video", "codec", "resolution", "duration", "size"]

/-- `validate_format_template`: `false` for the empty template or any
placeholder outside `valid_vars`. -/
def validate_format_template (template : String) : Bool :=
  if template = "" then false
  else (findPlaceholders template.data.length template.data).all (· ∈ valid_vars)

/-- Numeric value of a decimal digit character. -/
def decVal (c : Char) : Nat := c.toNat - 48

/-- Read a digit string back into a number. -/
def parseDec (cs : List Char) : Nat := cs.foldl (fun a c => a * 10 + decVal c) 0

/-- Adjacent separator pairs never survive `collapseSep`. -/
def NoTwoSeps (l : List Char) : Prop :=
  List.Chain' (fun a b => ¬(isSepChar a = true ∧ isSepChar b = true)) l

/-- The invariant satisfied by every `sanitizeCore` output. -/
structure Sanitized (l : List Char) : Prop where
  ne : l ≠ []
  clean : ∀ c ∈ l, isInvalidChar c = false
  nospace : ∀ c ∈ l, c ≠ ' '
  chain : NoTwoSeps l
  headOk : ∀ c ∈ l.head?, isStripChar c = false
  lastOk : ∀ c ∈ l.getLast?, isStripChar c = false

/-- The C7 counterexample description: same as the C2 scenario but with a
disallowed character inside the recorded extension field. -/
def badExtInfo : FileInfo :=
  { title := some "Song", artist := some "Unknown Artist", album := none,
    genre := none, year := none, ftype := none, bitrate := none, codec := none,
    resolution := none, duration := none, size := none, extension := some ".m<p3" }

/-! ## Claim theorems -/

/-- C1, counterexample: at the exact boundary `now − windowStart = windowSeconds`
(user with a stored row `(count 3, start 0)` checked at `now = 60` against the
default 5/60s config) the claim demands a reset to count 1, but
`check_rate_limit` treats the window as still open and increments to 4. -/
theorem check_rate_limit_no_reset_at_boundary :
    (60 : Int) - 0 ≥ 60 ∧
    check_rate_limit (some ⟨3, 0⟩) 60 5 60 = (true, ⟨4, 0⟩) ∧
    check_rate_limit (some ⟨3, 0⟩) 60 5 60 ≠ (true, ⟨1, 60⟩) := by
  refine ⟨by decide, by decide, by decide⟩

/-- C1, amended: fixed-window semantics of `check_rate_limit` with the default
ceiling 5 / 60 s — the first request creates a window with count 1 and is
allowed; a request with `now − windowStart > windowSeconds` (strictly) resets
the window to count 1 and is allowed; otherwise the request is in-window: it
increments the count and is allowed while the count is below the ceiling, and
once `count ≥ 5` it is denied without incrementing; hence of 6 in-window calls
exactly the first 5 succeed, and a call after the window has elapsed strictly
resets the counter to 1. -/
theorem check_rate_limit_fixed_window :
    (∀ now : Int, check_rate_limit none now 5 60 = (true, ⟨1, now⟩)) ∧
    (∀ (r : RateLimitWindow) (now : Int), now - r.window_start > 60 →
      check_rate_limit (some r) now 5 60 = (true, ⟨1, now⟩)) ∧
    (∀ (r : RateLimitWindow) (now : Int), now - r.window_start ≤ 60 →
      r.request_count < 5 →
      check_rate_limit (some r) now 5 60 = (true, ⟨r.request_count + 1, r.window_start⟩)) ∧
    (∀ (r : RateLimitWindow) (now : Int), now - r.window_start ≤ 60 →
      r.request_count ≥ 5 →
      check_rate_limit (some r) now 5 60 = (false, r)) ∧
    rateLimitRun [0, 1, 2, 3, 4, 5] none =
      ([true, true, true, true, true, false], some ⟨5, 0⟩) ∧
    rateLimitRun [0, 0, 0, 0, 0, 0, 61] none =
      ([true, true, true, true, true, false, true], some ⟨1, 61⟩) := by
  refine ⟨fun now => rfl, fun r now h => ?_, fun r now h hc => ?_, fun r now h hc => ?_,
    by decide, by decide⟩
  · simp only [check_rate_limit]
    rw [if_pos (by omega)]
  · simp only [check_rate_limit]
    rw [if_neg (by omega), if_neg (by omega)]
  · simp only [check_rate_limit]
    rw [if_neg (by omega), if_pos (by omega)]

/-- C1, witness: the amended theorem applied at concrete inputs — an in-window
request under the ceiling increments, a strictly-expired window resets. -/
theorem check_rate_limit_fixed_window_witness :
    check_rate_limit (some ⟨2, 0⟩) 30 5 60 = (true, ⟨3, 0⟩) ∧
    check_rate_limit (some ⟨5, 0⟩) 61 5 60 = (true, ⟨1, 61⟩) :=
  ⟨check_rate_limit_fixed_window.2.2.1 ⟨2, 0⟩ 30 (by decide) (by decide),
   check_rate_limit_fixed_window.2.1 ⟨5, 0⟩ 61 (by decide)⟩

/-- C9: whenever the storage layer fails (`fetch` is an error), the
`try/except` of `check_rate_limit` swallows the exception and allows the
request. -/
theorem check_rate_limit_fails_open (fetch : Except String (Option RateLimitWindow))
    (now : Int) (max_requests : Nat) (window_seconds : Int)
    (h : ∃ e, fetch = Except.error e) :
    check_rate_limit_db fetch now max_requests window_seconds = true := by
  obtain ⟨e, rfl⟩ := h
  rfl

/-- C9, witness: a concrete storage failure is allowed through. -/
theorem check_rate_limit_fails_open_witness :
    check_rate_limit_db (Except.error "database is locked") 0 5 60 = true :=
  check_rate_limit_fails_open _ 0 5 60 ⟨"database is locked", rfl⟩

/-- C10: the oversize rejection is strict — a declared size equal to the
configured maximum (default 5 GB) passes both the `handle_file` check and
`validate_file`, and only a strictly greater size is rejected. -/
theorem size_limit_boundary :
    (∀ file_size max_size : Nat,
      handle_file_size_rejected file_size max_size = false ↔ file_size ≤ max_size) ∧
    handle_file_size_rejected MAX_FILE_SIZE MAX_FILE_SIZE = false ∧
    handle_file_size_rejected (MAX_FILE_SIZE + 1) MAX_FILE_SIZE = true ∧
    validate_file (some MAX_FILE_SIZE) (some "movie.mp4") MAX_FILE_SIZE = (true, "Valid file") ∧
    (validate_file (some (MAX_FILE_SIZE + 1)) (some "movie.mp4") MAX_FILE_SIZE).1 = false := by
  refine ⟨fun s m => ?_, by decide, by decide, by decide, by decide⟩
  simp only [handle_file_size_rejected, decide_eq_false_iff_not, gt_iff_lt, not_lt]

/-- C2, counterexample: the scenario's template and description do not compose
to `"Song - Unknown Artist.mp3"` — `sanitize_filename` collapses every run of
spaces/underscores to a single underscore, so the spaces around the dash do
not survive. -/
theorem generate_filename_song_not_spaced :
    generate_filename songInfo "\x7btitle\x7d - \x7bartist\x7d" ≠ "Song - Unknown Artist.mp3" := by
  decide

/-- C2, amended: with template `{title} - {artist}`, description
`{title: "Song", artist: "Unknown Artist"}` and extension `.mp3`, the composed
(substituted, sanitized, extension-normalized) name is
`"Song_-_Unknown_Artist.mp3"`: sanitization rewrites the space-dash-space
separators to underscores. -/
theorem generate_filename_song :
    generate_filename songInfo "\x7btitle\x7d - \x7bartist\x7d" = "Song_-_Unknown_Artist.mp3" := by
  decide

/-- C4: with download and rename succeeding, the job result is entirely
independent of the metadata/thumbnail stage outcome (and of the history
write): `process_file` discards the value returned by `process_metadata`,
so the result always has `success = true` with the file at the composed,
collision-resolved path. -/
theorem process_file_metadata_best_effort (path : String) (existing : List String)
    (fi : FileInfo) (custom_format : String)
    (auto_thumbnail metadataOk metadataOk' historyOk historyOk' : Bool) :
    process_file (some path) existing true fi custom_format auto_thumbnail metadataOk historyOk =
      process_file (some path) existing true fi custom_format auto_thumbnail metadataOk' historyOk' ∧
    (process_file (some path) existing true fi custom_format auto_thumbnail metadataOk historyOk).success
      = true ∧
    (process_file (some path) existing true fi custom_format auto_thumbnail metadataOk historyOk).file_path
      = some (rename_file existing (generate_filename fi custom_format)) := by
  refine ⟨rfl, rfl, rfl⟩

/-! Helper lemmas for the broadcast loop. -/

theorem broadcastLoop_attempted (deliver : Int → Bool) :
    ∀ (rest : List Int) (s f : Nat) (att : List Int),
      (broadcastLoop deliver rest s f att).2.2 = att ++ rest := by
  intro rest
  induction rest with
  | nil => intro s f att; simp [broadcastLoop]
  | cons uid rest ih =>
    intro s f att
    simp only [broadcastLoop]
    by_cases h : deliver uid
    · rw [if_pos h, ih]
      simp
    · rw [if_neg h, ih]
      simp

theorem broadcastLoop_counts (deliver : Int → Bool) :
    ∀ (rest : List Int) (s f : Nat) (att : List Int),
      (broadcastLoop deliver rest s f att).1 + (broadcastLoop deliver rest s f att).2.1
        = s + f + rest.length := by
  intro rest
  induction rest with
  | nil => intro s f att; simp [broadcastLoop]
  | cons uid rest ih =>
    intro s f att
    simp only [broadcastLoop]
    by_cases h : deliver uid
    · rw [if_pos h, ih]
      simp only [List.length_cons]
      omega
    · rw [if_neg h, ih]
      simp only [List.length_cons]
      omega

/-- C5: the broadcast loop attempts every recipient exactly once, in sequence
(the attempted list is the recipient list itself), per-recipient failures do
not stop the loop, and the final counts always add up to the number of
recipients; in particular 23 recipients with #7 and #15 failing give
`(successCount, failureCount) = (21, 2)` with all 23 attempted. -/
theorem send_broadcast_attempts_all :
    (∀ (recipients : List Int) (deliver : Int → Bool),
      (send_broadcast recipients deliver).2.2 = recipients) ∧
    (∀ (recipients : List Int) (deliver : Int → Bool),
      (send_broadcast recipients deliver).1 + (send_broadcast recipients deliver).2.1
        = recipients.length) ∧
    send_broadcast ((List.range 23).map (fun i => (i : Int) + 1))
        (fun uid => !(uid == 7 || uid == 15))
      = (21, 2, (List.range 23).map (fun i => (i : Int) + 1)) := by
  refine ⟨fun recipients deliver => ?_, fun recipients deliver => ?_, by decide⟩
  · simpa using broadcastLoop_attempted deliver recipients 0 0 []
  · simpa using broadcastLoop_counts deliver recipients 0 0 []

/-- C6, counterexample: a rejected manual-filename input (the cleaner returns
an empty, Python-falsy name) leaves the user's session in AwaitingFilename
with the pending file still attached — the session is not reset to Idle; the
same holds for a rejected format template. -/
theorem failure_paths_keep_session :
    handle_manual_filename (some ⟨.awaitingFilename, true⟩) (fun _ => "") "bad/name"
        (some ()) (Except.ok ⟨true, none, none, none⟩)
      = some ⟨.awaitingFilename, true⟩ ∧
    some (⟨.awaitingFilename, true⟩ : PendingState) ≠ none ∧
    handle_custom_format (some ⟨.awaitingFormat, false⟩) false true
      = some ⟨.awaitingFormat, false⟩ := by
  refine ⟨rfl, by decide, rfl⟩

/-- C6, amended: the conversation layer clears the session (back to Idle) on
every path where processing is actually attempted — job success, job failure,
or a crash caught by the handler (`finally: user_states.pop`) — and after a
valid format template regardless of whether the settings update succeeds; but
a rejected filename input or rejected format template returns early without
clearing, leaving the user in the same Awaiting state to retry. -/
theorem session_reset_after_processing :
    (∀ (p : PendingState) (cleanFilename : String → String) (input : String)
        (jobOutcome : Except String JobResult),
      p.hasFileObj = true → cleanFilename input ≠ "" →
      handle_manual_filename (some p) cleanFilename input (some ()) jobOutcome = none) ∧
    (∀ (p : PendingState) (cleanFilename : String → String) (input : String)
        (userData : Option Unit) (jobOutcome : Except String JobResult),
      cleanFilename input = "" →
      handle_manual_filename (some p) cleanFilename input userData jobOutcome = some p) ∧
    (∀ (state : Option PendingState) (updateOk : Bool),
      handle_custom_format state true updateOk = none) ∧
    (∀ (state : Option PendingState) (updateOk : Bool),
      handle_custom_format state false updateOk = state) := by
  refine ⟨fun p cf input out hp hc => ?_, fun p cf input ud out hc => ?_,
    fun st u => rfl, fun st u => rfl⟩
  · simp [handle_manual_filename, hp, hc]
  · cases hp : p.hasFileObj <;> simp [handle_manual_filename, hp, hc]

/-- C6, witness: the amended theorem at concrete inputs — a crashed job clears
the session; an empty cleaned filename keeps it. -/
theorem session_reset_after_processing_witness :
    handle_manual_filename (some ⟨.awaitingFilename, true⟩) (fun s => s) "My File"
        (some ()) (Except.error "boom") = none ∧
    handle_manual_filename (some ⟨.awaitingFilename, true⟩) (fun _ => "") "x"
        (some ()) (Except.error "boom") = some ⟨.awaitingFilename, true⟩ :=
  ⟨session_reset_after_processing.1 ⟨.awaitingFilename, true⟩ (fun s => s) "My File"
      (Except.error "boom") rfl (by decide),
   session_reset_after_processing.2.1 ⟨.awaitingFilename, true⟩ (fun _ => "") "x"
      (some ()) (Except.error "boom") rfl⟩

/-! Helper lemmas for the rename-collision loop: the decimal rendering of the
counter is injective, so `existing.length + 1` fuel always reaches a free
candidate. -/

theorem decVal_decDigit {n : Nat} (h : n < 10) : decVal (decDigit n) = n := by
  interval_cases n <;> decide

theorem parseDec_snoc (l : List Char) (c : Char) :
    parseDec (l ++ [c]) = parseDec l * 10 + decVal c := by
  simp [parseDec, List.foldl_append]

theorem parseDec_natDecAux : ∀ (fuel n : Nat), n < 10 ^ fuel →
    parseDec (natDecAux fuel n) = n := by
  intro fuel
  induction fuel with
  | zero =>
    intro n hn
    interval_cases n
    decide
  | succ fuel ih =>
    intro n hn
    by_cases h : n < 10
    · simp only [natDecAux, if_pos h, parseDec, List.foldl]
      rw [decVal_decDigit h]
      omega
    · simp only [natDecAux, if_neg h]
      rw [parseDec_snoc, ih (n / 10) ?hdiv, decVal_decDigit (Nat.mod_lt n (by omega))]
      · omega
      case hdiv =>
        rw [Nat.div_lt_iff_lt_mul (by omega)]
        calc n < 10 ^ (fuel + 1) := hn
          _ = 10 ^ fuel * 10 := by ring

theorem parseDec_natDecimal (n : Nat) : parseDec (natDecimal n).data = n := by
  have hlt : n < 10 ^ (n + 1) :=
    lt_of_lt_of_le (Nat.lt_two_pow n)
      (Nat.pow_le_pow_left (by omega) n |>.trans (Nat.pow_le_pow_right (by omega) (by omega)))
  exact parseDec_natDecAux (n + 1) n hlt

theorem natDecimal_inj {m n : Nat} (h : natDecimal m = natDecimal n) : m = n := by
  have hd : (natDecimal m).data = (natDecimal n).data := by rw [h]
  calc m = parseDec (natDecimal m).data := (parseDec_natDecimal m).symm
    _ = parseDec (natDecimal n).data := by rw [hd]
    _ = n := parseDec_natDecimal n

theorem mkCand_inj (base ext : String) {j k : Nat}
    (h : mkCand base ext j = mkCand base ext k) : j = k := by
  have hd : base.data ++ ('_' :: ((natDecimal j).data ++ ext.data))
      = base.data ++ ('_' :: ((natDecimal k).data ++ ext.data)) := by
    have := congrArg String.data h
    simpa [mkCand, String.data_append] using this
  have h1 : (natDecimal j).data ++ ext.data = (natDecimal k).data ++ ext.data := by
    have := List.append_cancel_left hd
    exact List.tail_eq_of_cons_eq this
  have h2 : (natDecimal j).data = (natDecimal k).data := List.append_cancel_right h1
  exact natDecimal_inj (by apply String.ext; exact h2)

/-- Pigeonhole: among any `existing.length + 1` consecutive candidates, one is
not in `existing`. -/
theorem exists_free_cand (existing : List String) (base ext : String) (k : Nat) :
    ∃ j, k ≤ j ∧ j < k + existing.length + 1 ∧ mkCand base ext j ∉ existing := by
  by_contra hcon
  push_neg at hcon
  set L := (List.range (existing.length + 1)).map (fun i => mkCand base ext (k + i)) with hL
  have hnd : L.Nodup := by
    refine List.Nodup.map ?_ (List.nodup_range _)
    intro a b hab
    have := mkCand_inj base ext hab
    omega
  have hsub : L ⊆ existing := by
    intro x hx
    rw [hL, List.mem_map] at hx
    obtain ⟨i, hi, rfl⟩ := hx
    rw [List.mem_range] at hi
    exact hcon (k + i) (by omega) (by omega)
  have hlen : L.length ≤ existing.length := (hnd.subperm hsub).length_le
  rw [hL, List.length_map, List.length_range] at hlen
  omega

/-- The loop resolves to the least free counter, provided one lies within the
fuel budget. -/
theorem renameLoop_eq_least (existing : List String) (base ext : String) :
    ∀ (fuel k j : Nat), k ≤ j → j < k + fuel →
      mkCand base ext j ∉ existing →
      (∀ i, k ≤ i → i < j → mkCand base ext i ∈ existing) →
      renameLoop existing base ext fuel k = mkCand base ext j := by
  intro fuel
  induction fuel with
  | zero => intro k j h1 h2; omega
  | succ fuel ih =>
    intro k j h1 h2 hfree hmin
    by_cases hk : mkCand base ext k ∈ existing
    · have hkj : k < j := by
        rcases Nat.lt_or_ge k j with h | h
        · exact h
        · have : k = j := by omega
          exact absurd (this ▸ hk) hfree
      simp only [renameLoop, if_pos hk]
      exact ih (k + 1) j hkj (by omega) hfree (fun i hi hij => hmin i (by omega) hij)
    · have hjk : j = k := by
        rcases Nat.lt_or_ge k j with h | h
        · exact absurd (hmin k (le_refl k) h) hk
        · omega
      simp only [renameLoop, if_neg hk]
      rw [hjk]

/-- C3: the rename-collision policy of `rename_file` — a target that does not
collide is used as is; a colliding target is replaced by
`stem_k.ext` for the least counter `k ≥ 1` whose candidate does not exist
(every smaller counter's candidate collides), so candidates are tried strictly
in order `_1, _2, …`; the chosen path never collides with an existing file; and
in particular a target colliding with `movie.mp4` becomes `movie_1.mp4`, a
second collision `movie_2.mp4`. -/
theorem rename_file_collision_policy :
    (∀ (existing : List String) (new_name : String),
      rename_file existing new_name ∉ existing) ∧
    (∀ (existing : List String) (new_name : String), new_name ∈ existing →
      ∃ k, 1 ≤ k ∧
        rename_file existing new_name
          = mkCand (String.mk (pySplitext new_name.data).1)
              (String.mk (pySplitext new_name.data).2) k ∧
        mkCand (String.mk (pySplitext new_name.data).1)
              (String.mk (pySplitext new_name.data).2) k ∉ existing ∧
        (∀ i, 1 ≤ i → i < k →
          mkCand (String.mk (pySplitext new_name.data).1)
              (String.mk (pySplitext new_name.data).2) i ∈ existing)) ∧
    rename_file ["movie.mp4"] "movie.mp4" = "movie_1.mp4" ∧
    rename_file ["movie.mp4", "movie_1.mp4"] "movie.mp4" = "movie_2.mp4" := by
  have key : ∀ (existing : List String) (new_name : String), new_name ∈ existing →
      ∃ k, 1 ≤ k ∧
        rename_file existing new_name
          = mkCand (String.mk (pySplitext new_name.data).1)
              (String.mk (pySplitext new_name.data).2) k ∧
        mkCand (String.mk (pySplitext new_name.data).1)
              (String.mk (pySplitext new_name.data).2) k ∉ existing ∧
        (∀ i, 1 ≤ i → i < k →
          mkCand (String.mk (pySplitext new_name.data).1)
              (String.mk (pySplitext new_name.data).2) i ∈ existing) := by
    intro existing new_name hmem
    set base := String.mk (pySplitext new_name.data).1 with hbase
    set ext := String.mk (pySplitext new_name.data).2 with hext
    have hex : ∃ j, mkCand base ext j ∉ existing ∧ 1 ≤ j := by
      obtain ⟨j, hj1, _, hj3⟩ := exists_free_cand existing base ext 1
      exact ⟨j, hj3, hj1⟩
    set j := Nat.find hex with hj
    obtain ⟨hjfree, hj1⟩ := Nat.find_spec hex
    obtain ⟨j0, hj01, hj02, hj03⟩ := exists_free_cand existing base ext 1
    have hjle : j ≤ j0 := Nat.find_min' hex ⟨hj03, hj01⟩
    have hmin : ∀ i, 1 ≤ i → i < j → mkCand base ext i ∈ existing := by
      intro i hi1 hij
      by_contra hfree
      exact absurd ⟨hfree, hi1⟩ (Nat.find_min hex hij)
    refine ⟨j, hj1, ?_, hjfree, hmin⟩
    simp only [rename_file, if_pos hmem]
    exact renameLoop_eq_least existing base ext (existing.length + 1) 1 j hj1
      (by omega) hjfree hmin
  refine ⟨?_, key, by decide, by decide⟩
  intro existing new_name
  by_cases hmem : new_name ∈ existing
  · obtain ⟨k, _, heq, hfree, _⟩ := key existing new_name hmem
    rw [heq]
    exact hfree
  · simpa [rename_file, if_neg hmem] using hmem

/-! Helper lemmas for the sanitization pipeline: every output of
`sanitize_filename` is non-empty, free of invalid characters and spaces, has
no two adjacent separator characters, neither starts nor ends with a strip
character, and has a stem of at most 200 characters — and every list with
those properties is a fixed point of `sanitize_filename`. -/

theorem replInvalid_clean (c : Char) : isInvalidChar (replInvalid c) = false := by
  by_cases h : isInvalidChar c
  · simp only [replInvalid, if_pos h]
    decide
  · simp only [replInvalid, if_neg h]
    simpa using h

/-! Unfolding equations for `collapseSep`, stated per branch. -/

theorem collapseSep_singleton_sep {a : Char} (ha : isSepChar a = true) :
    collapseSep [a] = ['_'] := by
  simp [collapseSep, ha]

theorem collapseSep_cons₂_sep_sep {a b : Char} (l : List Char)
    (ha : isSepChar a = true) (hb : isSepChar b = true) :
    collapseSep (a :: b :: l) = collapseSep (b :: l) := by
  simp [collapseSep, ha, hb]

theorem collapseSep_cons₂_sep_nonsep {a b : Char} (l : List Char)
    (ha : isSepChar a = true) (hb : isSepChar b = false) :
    collapseSep (a :: b :: l) = '_' :: collapseSep (b :: l) := by
  simp [collapseSep, ha, hb]

theorem collapseSep_cons_nonsep {a : Char} (l : List Char)
    (ha : isSepChar a = false) :
    collapseSep (a :: l) = a :: collapseSep l := by
  simp [collapseSep, ha]

theorem mem_collapseSep : ∀ (l : List Char), ∀ c ∈ collapseSep l, c ∈ l ∨ c = '_' := by
  intro l
  induction l with
  | nil => simp [collapseSep]
  | cons a l ih =>
    intro c hc
    by_cases ha : isSepChar a
    · match l with
      | [] =>
        rw [collapseSep_singleton_sep ha] at hc
        exact Or.inr (List.mem_singleton.mp hc)
      | b :: l' =>
        by_cases hb : isSepChar b
        · rw [collapseSep_cons₂_sep_sep l' ha hb] at hc
          rcases ih c hc with h | h
          · exact Or.inl (List.mem_cons_of_mem a h)
          · exact Or.inr h
        · rw [collapseSep_cons₂_sep_nonsep l' ha (by simpa using hb)] at hc
          rcases List.mem_cons.mp hc with rfl | hc
          · exact Or.inr rfl
          · rcases ih c hc with h | h
            · exact Or.inl (List.mem_cons_of_mem a h)
            · exact Or.inr h
    · rw [collapseSep_cons_nonsep l (by simpa using ha)] at hc
      rcases List.mem_cons.mp hc with rfl | hc
      · exact Or.inl (List.mem_cons_self c l)
      · rcases ih c hc with h | h
        · exact Or.inl (List.mem_cons_of_mem a h)
        · exact Or.inr h

theorem collapseSep_nospace : ∀ (l : List Char), ∀ c ∈ collapseSep l, c ≠ ' ' := by
  intro l
  induction l with
  | nil => simp [collapseSep]
  | cons a l ih =>
    intro c hc
    by_cases ha : isSepChar a
    · match l with
      | [] =>
        rw [collapseSep_singleton_sep ha] at hc
        have h1 := List.mem_singleton.mp hc
        subst h1; decide
      | b :: l' =>
        by_cases hb : isSepChar b
        · rw [collapseSep_cons₂_sep_sep l' ha hb] at hc
          exact ih c hc
        · rw [collapseSep_cons₂_sep_nonsep l' ha (by simpa using hb)] at hc
          rcases List.mem_cons.mp hc with rfl | hc'
          · decide
          · exact ih c hc'
    · rw [collapseSep_cons_nonsep l (by simpa using ha)] at hc
      rcases List.mem_cons.mp hc with rfl | hc'
      · intro habs
        subst habs
        exact ha (by decide)
      · exact ih c hc'

theorem collapseSep_chain : ∀ (l : List Char), NoTwoSeps (collapseSep l) := by
  intro l
  induction l with
  | nil => simp [collapseSep, NoTwoSeps]
  | cons a l ih =>
    by_cases ha : isSepChar a
    · match l with
      | [] =>
        rw [collapseSep_singleton_sep ha]
        exact List.chain'_singleton _
      | b :: l' =>
        by_cases hb : isSepChar b
        · rw [collapseSep_cons₂_sep_sep l' ha hb]
          exact ih
        · rw [collapseSep_cons₂_sep_nonsep l' ha (by simpa using hb)]
          rw [NoTwoSeps, List.chain'_cons']
          refine ⟨?_, ih⟩
          intro y hy habs
          rw [collapseSep_cons_nonsep l' (by simpa using hb), List.head?_cons,
            Option.mem_some_iff] at hy
          subst hy
          exact hb habs.2
    · rw [collapseSep_cons_nonsep l (by simpa using ha)]
      rw [NoTwoSeps, List.chain'_cons']
      refine ⟨?_, ih⟩
      intro y hy habs
      exact ha (by simp [habs.1])

theorem collapseSep_fixed : ∀ (l : List Char),
    (∀ c ∈ l, c ≠ ' ') → NoTwoSeps l → collapseSep l = l := by
  intro l
  induction l with
  | nil => intro _ _; rfl
  | cons a l ih =>
    intro hsp hch
    by_cases ha : isSepChar a
    · have ha' : a = '_' := by
        have := hsp a (List.mem_cons_self a l)
        revert ha this
        simp only [isSepChar, decide_eq_true_eq, Bool.decide_or]
        intro h1 h2
        rcases Bool.or_eq_true_iff.mp h1 with h | h
        · exact absurd (by simpa using h) h2
        · simpa using h
      match l with
      | [] =>
        rw [collapseSep_singleton_sep ha, ha']
      | b :: l' =>
        have hb : isSepChar b = false := by
          have hpair := (List.chain'_cons.mp hch).1
          by_contra hb'
          exact hpair ⟨ha, by simpa using hb'⟩
        rw [collapseSep_cons₂_sep_nonsep l' ha hb, ha']
        have htail : collapseSep (b :: l') = b :: l' :=
          ih (fun c hc => hsp c (List.mem_cons_of_mem a hc)) (List.chain'_cons.mp hch).2
        rw [htail]
    · rw [collapseSep_cons_nonsep l (by simpa using ha)]
      have htail : collapseSep l = l :=
        ih (fun c hc => hsp c (List.mem_cons_of_mem a hc)) hch.tail
      rw [htail]

/-! `pyStrip` lemmas. -/

theorem head?_dropWhile (p : Char → Bool) :
    ∀ (l : List Char), ∀ c ∈ (l.dropWhile p).head?, p c = false := by
  intro l
  induction l with
  | nil => simp [List.dropWhile]
  | cons a l ih =>
    intro c hc
    by_cases hpa : p a
    · rw [List.dropWhile_cons_of_pos hpa] at hc
      exact ih c hc
    · rw [List.dropWhile_cons_of_neg hpa, List.head?_cons, Option.mem_some_iff] at hc
      subst hc
      simpa using hpa

theorem dropWhile_eq_self_of_head (p : Char → Bool) (l : List Char)
    (h : ∀ c ∈ l.head?, p c = false) : l.dropWhile p = l := by
  match l with
  | [] => rfl
  | a :: l =>
    have := h a (by simp)
    rw [List.dropWhile_cons_of_neg (by simp [this])]

theorem pyStrip_contained (l : List Char) : pyStrip l <:+: l := by
  have h1 : l.dropWhile isStripChar <:+ l := List.dropWhile_suffix _
  have h2 : (l.dropWhile isStripChar).reverse.dropWhile isStripChar
      <:+ (l.dropWhile isStripChar).reverse := List.dropWhile_suffix _
  have h3 : pyStrip l <+: l.dropWhile isStripChar := by
    have := h2.reverse
    simpa [pyStrip] using this
  exact List.IsInfix.trans (List.IsPrefix.isInfix h3) (List.IsSuffix.isInfix h1)

theorem pyStrip_head (l : List Char) :
    ∀ c ∈ (pyStrip l).head?, isStripChar c = false := by
  intro c hc
  rw [pyStrip, List.head?_reverse] at hc
  -- c is the last element of the doubly-dropped list, which is a suffix of the
  -- reversed once-dropped list, whose last element is the head of the
  -- once-dropped list.
  rcases hk : (l.dropWhile isStripChar).reverse.dropWhile isStripChar with _ | ⟨b, k⟩
  · rw [hk] at hc
    simp at hc
  · rw [hk] at hc
    have hkne : (l.dropWhile isStripChar).reverse.dropWhile isStripChar ≠ [] := by
      rw [hk]; simp
    have hsuf : (l.dropWhile isStripChar).reverse.dropWhile isStripChar
        <:+ (l.dropWhile isStripChar).reverse := List.dropWhile_suffix _
    obtain ⟨t, ht⟩ := hsuf
    have hlast : ((l.dropWhile isStripChar).reverse.dropWhile isStripChar).getLast?
        = (l.dropWhile isStripChar).reverse.getLast? := by
      have hstep := (List.getLast?_append_of_ne_nil t hkne).symm
      rw [ht] at hstep
      exact hstep
    rw [hk] at hlast
    rw [hlast, List.getLast?_reverse] at hc
    exact head?_dropWhile isStripChar l c hc

theorem pyStrip_last (l : List Char) :
    ∀ c ∈ (pyStrip l).getLast?, isStripChar c = false := by
  intro c hc
  rw [pyStrip, List.getLast?_reverse] at hc
  exact head?_dropWhile isStripChar _ c hc

theorem pyStrip_fixed (l : List Char)
    (hh : ∀ c ∈ l.head?, isStripChar c = false)
    (hl : ∀ c ∈ l.getLast?, isStripChar c = false) : pyStrip l = l := by
  rw [pyStrip, dropWhile_eq_self_of_head _ l hh,
    dropWhile_eq_self_of_head _ l.reverse (by rw [List.head?_reverse]; exact hl),
    List.reverse_reverse]

/-! `pySplitext` lemmas. -/

theorem head?_append_left (l₁ l₂ : List Char) (h : l₁ ≠ []) :
    (l₁ ++ l₂).head? = l₁.head? := by
  match l₁ with
  | [] => exact absurd rfl h
  | a :: l => simp

theorem takeWhile_append_all (q : Char → Bool) :
    ∀ (a : List Char) (b : Char) (t : List Char), (∀ x ∈ a, q x = true) → q b = false →
      (a ++ b :: t).takeWhile q = a := by
  intro a
  induction a with
  | nil =>
    intro b t _ hb
    simp [List.takeWhile_cons, hb]
  | cons x a ih =>
    intro b t ha hb
    rw [List.cons_append, List.takeWhile_cons_of_pos (ha x (by simp)),
      ih b t (fun y hy => ha y (by simp [hy])) hb]

theorem dropWhile_append_all (q : Char → Bool) :
    ∀ (a : List Char) (b : Char) (t : List Char), (∀ x ∈ a, q x = true) → q b = false →
      (a ++ b :: t).dropWhile q = b :: t := by
  intro a
  induction a with
  | nil =>
    intro b t _ hb
    simp [List.dropWhile_cons, hb]
  | cons x a ih =>
    intro b t ha hb
    rw [List.cons_append, List.dropWhile_cons_of_pos (ha x (by simp)),
      ih b t (fun y hy => ha y (by simp [hy])) hb]

/-- `splitext` always decomposes its input: `stem ++ ext = input`. -/
theorem pySplitext_append (cs : List Char) :
    (pySplitext cs).1 ++ (pySplitext cs).2 = cs := by
  unfold pySplitext
  split
  · simp
  · rename_i c before hrest
    split_ifs with h
    · obtain ⟨rfl, _⟩ := h
      have hdecomp := List.takeWhile_append_dropWhile notDotSlash cs.reverse
      rw [hrest] at hdecomp
      have hrev := congrArg List.reverse hdecomp
      simpa using hrev
    · simp

theorem pySplitext_no_dot (cs : List Char) (h : '.' ∉ cs) :
    pySplitext cs = (cs, []) := by
  unfold pySplitext
  split
  · rfl
  · rename_i c before hrest
    have hc : notDotSlash c = false :=
      head?_dropWhile notDotSlash cs.reverse c (by rw [hrest]; simp)
    have hcmem : c ∈ cs := by
      have h1 : c ∈ cs.reverse.dropWhile notDotSlash := by rw [hrest]; simp
      exact List.mem_reverse.mp ((List.dropWhile_suffix notDotSlash).subset h1)
    have hcne : c ≠ '.' := fun hcc => h (hcc ▸ hcmem)
    rw [if_neg]
    intro habs
    exact hcne habs.1

theorem pySplitext_split (n xs : List Char) (hn : n ≠ [])
    (hnd : ∃ c ∈ n, c ≠ '.') (hslashn : '/' ∉ n)
    (hxs : ∀ c ∈ xs, notDotSlash c = true) :
    pySplitext (n ++ '.' :: xs) = (n, '.' :: xs) := by
  have hrev : (n ++ '.' :: xs).reverse = xs.reverse ++ '.' :: n.reverse := by
    simp
  have hdrop : (n ++ '.' :: xs).reverse.dropWhile notDotSlash = '.' :: n.reverse := by
    rw [hrev]
    exact dropWhile_append_all notDotSlash xs.reverse '.' n.reverse
      (fun x hx => hxs x (List.mem_reverse.mp hx)) (by decide)
  have htake : (n ++ '.' :: xs).reverse.takeWhile notDotSlash = xs.reverse := by
    rw [hrev]
    exact takeWhile_append_all notDotSlash xs.reverse '.' n.reverse
      (fun x hx => hxs x (List.mem_reverse.mp hx)) (by decide)
  unfold pySplitext
  split
  · rename_i hrest
    rw [hdrop] at hrest
    simp at hrest
  · rename_i c before hrest
    rw [hdrop] at hrest
    injection hrest with h1 h2
    subst h1
    rw [if_pos]
    · rw [← h2, htake]
      simp
    · refine ⟨rfl, ?_⟩
      rw [← h2]
      have hall : n.reverse.takeWhile (fun b => b ≠ '/') = n.reverse := by
        rw [List.takeWhile_eq_self_iff]
        intro x hx
        have : x ≠ '/' := fun hxx => hslashn (hxx ▸ List.mem_reverse.mp hx)
        simpa using this
      rw [hall, List.any_eq_true]
      obtain ⟨c0, hc0, hc0d⟩ := hnd
      exact ⟨c0, List.mem_reverse.mpr hc0, by simpa using hc0d⟩

/-- Under the invariants holding after `strip` (non-empty, head not a dot, no
slashes), `splitext` either finds no dot at all or splits at the last dot. -/
theorem pySplitext_cases (cs : List Char) (hne : cs ≠ [])
    (hh : ∀ c ∈ cs.head?, c ≠ '.') (hslash : '/' ∉ cs) :
    ('.' ∉ cs ∧ pySplitext cs = (cs, [])) ∨
    (∃ n xs, cs = n ++ '.' :: xs ∧ pySplitext cs = (n, '.' :: xs) ∧ n ≠ [] ∧
      '.' ∉ xs ∧ '/' ∉ xs) := by
  by_cases hdot : '.' ∈ cs
  · right
    rcases hrest : cs.reverse.dropWhile notDotSlash with _ | ⟨c, before⟩
    · rw [List.dropWhile_eq_nil_iff] at hrest
      have := hrest '.' (List.mem_reverse.mpr hdot)
      exact absurd this (by decide)
    · have hc : notDotSlash c = false :=
        head?_dropWhile notDotSlash cs.reverse c (by rw [hrest]; simp)
      have hcmem : c ∈ cs := by
        have h1 : c ∈ cs.reverse.dropWhile notDotSlash := by rw [hrest]; simp
        exact List.mem_reverse.mp ((List.dropWhile_suffix notDotSlash).subset h1)
      have hcd : c = '.' ∨ c = '/' := by
        by_contra habs
        push_neg at habs
        rw [show notDotSlash c = true from by simp [notDotSlash, habs.1, habs.2]] at hc
        exact absurd hc (by simp)
      have hcdot : c = '.' := by
        rcases hcd with h | h
        · exact h
        · exact absurd (h ▸ hcmem) hslash
      subst hcdot
      have hdecomp := List.takeWhile_append_dropWhile notDotSlash cs.reverse
      rw [hrest] at hdecomp
      have hcs : cs = before.reverse ++ '.' :: (cs.reverse.takeWhile notDotSlash).reverse := by
        have hrev := congrArg List.reverse hdecomp
        simpa using hrev.symm
      have hxs_all : ∀ x ∈ (cs.reverse.takeWhile notDotSlash).reverse, notDotSlash x = true :=
        fun x hx => List.mem_takeWhile_imp (List.mem_reverse.mp hx)
      set xs := (cs.reverse.takeWhile notDotSlash).reverse with hxsdef
      have hbne : before ≠ [] := by
        intro habs
        subst habs
        rw [hcs] at hh
        exact hh '.' (by simp) rfl
      have hbrne : before.reverse ≠ [] := fun habs => hbne (List.reverse_eq_nil_iff.mp habs)
      have hndot : ∃ c0 ∈ before.reverse, c0 ≠ '.' := by
        rcases hbr : before.reverse with _ | ⟨a, br⟩
        · exact absurd hbr hbrne
        · have hhead : cs.head? = some a := by
            rw [hcs, hbr]
            simp
          exact ⟨a, by simp [hbr], hh a (by rw [hhead]; rfl)⟩
      have hslashn : '/' ∉ before.reverse := by
        intro habs
        apply hslash
        rw [hcs]
        exact List.mem_append.mpr (Or.inl habs)
      refine ⟨before.reverse, xs, hcs, ?_, hbrne, ?_, ?_⟩
      · rw [hcs]
        exact pySplitext_split before.reverse xs hbrne hndot hslashn hxs_all
      · intro habs
        exact absurd (hxs_all '.' habs) (by decide)
      · intro habs
        exact absurd (hxs_all '/' habs) (by decide)
  · exact Or.inl ⟨hdot, pySplitext_no_dot cs hdot⟩

theorem isStripChar_false_of {c : Char} (h1 : c ≠ ' ') (h2 : c ≠ '.') :
    isStripChar c = false := by
  simp [isStripChar, h1, h2]

theorem sanitized_unnamed : Sanitized "unnamed_file".data := by
  refine ⟨by decide, by decide, by decide, ?_, by decide, by decide⟩
  rw [NoTwoSeps,
    show "unnamed_file".data = ['u', 'n', 'n', 'a', 'm', 'e', 'd', '_', 'f', 'i', 'l', 'e'] from rfl]
  simp only [List.chain'_cons, List.chain'_singleton, and_true]
  decide

/-- Recombining a shortened stem with the dot-extension keeps the sanitization
invariant and yields a ≤ 200 stem. -/
theorem sanitized_stem_append (n xs : List Char) (hn : n ≠ [])
    (hl : Sanitized (n ++ '.' :: xs)) (hxdot : '.' ∉ xs) (hxslash : '/' ∉ xs)
    (n' : List Char) (hsub : n' ⊆ n) (hne' : n' ≠ []) (hhead' : n'.head? = n.head?)
    (hchain' : List.Chain' (fun a b => ¬(isSepChar a = true ∧ isSepChar b = true)) n')
    (hlen' : n'.length ≤ 200) :
    Sanitized (n' ++ '.' :: xs) ∧ (pySplitext (n' ++ '.' :: xs)).1.length ≤ 200 := by
  have hmem : ∀ c ∈ n' ++ '.' :: xs, c ∈ n ++ '.' :: xs := by
    intro c hc
    rcases List.mem_append.mp hc with h | h
    · exact List.mem_append.mpr (Or.inl (hsub h))
    · exact List.mem_append.mpr (Or.inr h)
  have hchains := List.chain'_append.mp hl.chain
  have hheadn : ∀ c ∈ n.head?, isStripChar c = false := by
    intro c hc
    exact hl.headOk c (by rw [head?_append_left n ('.' :: xs) hn]; exact hc)
  have hndotmem : ∃ c ∈ n', c ≠ '.' := by
    rcases hn'e : n' with _ | ⟨a, t⟩
    · exact absurd hn'e hne'
    · have hha : a ∈ n.head? := by
        rw [← hhead', hn'e]
        rfl
      have := hheadn a hha
      refine ⟨a, by simp, ?_⟩
      intro habs
      subst habs
      exact absurd this (by decide)
  have hslashn' : '/' ∉ n' := by
    intro habs
    have := hl.clean '/' (hmem '/' (List.mem_append.mpr (Or.inl habs)))
    exact absurd this (by decide)
  have hsplit : pySplitext (n' ++ '.' :: xs) = (n', '.' :: xs) := by
    refine pySplitext_split n' xs hne' hndotmem hslashn' ?_
    intro c hc
    have h1 : c ≠ '.' := fun habs => hxdot (habs ▸ hc)
    have h2 : c ≠ '/' := fun habs => hxslash (habs ▸ hc)
    simp [notDotSlash, h1, h2]
  refine ⟨⟨by simp, ?_, ?_, ?_, ?_, ?_⟩, ?_⟩
  · intro c hc
    exact hl.clean c (hmem c hc)
  · intro c hc
    exact hl.nospace c (hmem c hc)
  · rw [NoTwoSeps, List.chain'_append]
    refine ⟨hchain', hchains.2.1, ?_⟩
    intro x _ y hy habs
    have hy' : y = '.' := by
      rw [List.head?_cons, Option.mem_some_iff] at hy
      exact hy.symm
    subst hy'
    exact absurd habs.2 (by decide)
  · intro c hc
    rw [head?_append_left n' ('.' :: xs) hne', hhead'] at hc
    exact hheadn c hc
  · intro c hc
    rw [List.getLast?_append_of_ne_nil n' (by simp)] at hc
    refine hl.lastOk c ?_
    rw [List.getLast?_append_of_ne_nil n (by simp)]
    exact hc
  · rw [hsplit]
    exact hlen'

/-- `truncStem` keeps the invariant and bounds the stem. -/
theorem truncStem_shape (l : List Char) (hs : Sanitized l) :
    Sanitized (truncStem l) ∧ (pySplitext (truncStem l)).1.length ≤ 200 := by
  have hhead : ∀ c ∈ l.head?, c ≠ '.' := by
    intro c hc habs
    subst habs
    exact absurd (hs.headOk '.' hc) (by decide)
  have hslash : '/' ∉ l := by
    intro habs
    exact absurd (hs.clean '/' habs) (by decide)
  rcases pySplitext_cases l hs.ne hhead hslash with ⟨hnodot, heq⟩ | ⟨n, xs, hdec, heq, hnne, hxdot, hxslash⟩
  · -- no extension: the result is `l` possibly truncated to 200 characters
    have ht : truncStem l = (if l.length > 200 then l.take 200 else l) := by
      unfold truncStem
      rw [heq]
      simp
    by_cases hlen : l.length > 200
    · rw [ht, if_pos hlen]
      have hsub : l.take 200 ⊆ l := List.take_subset 200 l
      have hnd : '.' ∉ l.take 200 := fun habs => hnodot (hsub habs)
      have hne : l.take 200 ≠ [] := by
        have : (l.take 200).length = 200 := by
          rw [List.length_take]
          omega
        intro habs
        rw [habs] at this
        simp at this
      refine ⟨⟨hne, ?_, ?_, ?_, ?_, ?_⟩, ?_⟩
      · intro c hc
        exact hs.clean c (hsub hc)
      · intro c hc
        exact hs.nospace c (hsub hc)
      · exact hs.chain.take 200
      · intro c hc
        rw [List.head?_take] at hc
        simp only [if_neg (by omega : ¬(200 : Nat) = 0)] at hc
        exact hs.headOk c hc
      · intro c hc
        have hcl : c ∈ l := hsub (List.mem_of_mem_getLast? hc)
        exact isStripChar_false_of (hs.nospace c hcl) (fun habs => hnodot (habs ▸ hcl))
      · rw [pySplitext_no_dot _ hnd]
        rw [List.length_take]
        omega
    · rw [ht, if_neg hlen]
      refine ⟨hs, ?_⟩
      rw [heq]
      show l.length ≤ 200
      omega
  · -- an extension was found: `l = n ++ '.' :: xs`
    have hxs_ne : xs ≠ [] := by
      intro habs
      subst habs
      have hlast : l.getLast? = some '.' := by
        rw [hdec, List.getLast?_append_of_ne_nil n (by simp)]
        rfl
      exact absurd (hs.lastOk '.' (by rw [hlast]; rfl)) (by decide)
    have hl' : Sanitized (n ++ '.' :: xs) := hdec ▸ hs
    have ht : truncStem l = (if n.length > 200 then n.take 200 else n) ++ '.' :: xs := by
      unfold truncStem
      rw [heq]
    have hchainn : List.Chain' (fun a b => ¬(isSepChar a = true ∧ isSepChar b = true)) n :=
      (List.chain'_append.mp hl'.chain).1
    by_cases hlen : n.length > 200
    · rw [ht, if_pos hlen]
      refine sanitized_stem_append n xs hnne hl' hxdot hxslash (n.take 200)
        (List.take_subset 200 n) ?_ ?_ (hchainn.take 200) ?_
      · have : (n.take 200).length = 200 := by
          rw [List.length_take]
          omega
        intro habs
        rw [habs] at this
        simp at this
      · rw [List.head?_take]
        simp
      · rw [List.length_take]
        omega
    · rw [ht, if_neg hlen]
      exact sanitized_stem_append n xs hnne hl' hxdot hxslash n
        (fun c hc => hc) hnne rfl hchainn (by omega)

/-- Every `sanitizeCore` output satisfies the invariant, with stem ≤ 200. -/
theorem sanitizeCore_shape (cs : List Char) :
    Sanitized (sanitizeCore cs) ∧ (pySplitext (sanitizeCore cs)).1.length ≤ 200 := by
  by_cases h0 : cs = []
  · subst h0
    refine ⟨sanitized_unnamed, by decide⟩
  · unfold sanitizeCore
    rw [if_neg h0]
    show Sanitized (truncStem (if pyStrip (collapseSep (cs.map replInvalid)) = []
        then "unnamed_file".data else pyStrip (collapseSep (cs.map replInvalid)))) ∧
      (pySplitext (truncStem (if pyStrip (collapseSep (cs.map replInvalid)) = []
        then "unnamed_file".data else pyStrip (collapseSep (cs.map replInvalid))))).1.length ≤ 200
    apply truncStem_shape
    by_cases h3 : pyStrip (collapseSep (cs.map replInvalid)) = []
    · rw [if_pos h3]
      exact sanitized_unnamed
    · rw [if_neg h3]
      have hinf := pyStrip_contained (collapseSep (cs.map replInvalid))
      refine ⟨h3, ?_, ?_, ?_, pyStrip_head _, pyStrip_last _⟩
      · intro c hc
        rcases mem_collapseSep _ c (hinf.subset hc) with h | rfl
        · rw [List.mem_map] at h
          obtain ⟨a, _, rfl⟩ := h
          exact replInvalid_clean a
        · decide
      · intro c hc
        exact collapseSep_nospace _ c (hinf.subset hc)
      · exact List.Chain'.infix (collapseSep_chain _) hinf

theorem map_replInvalid_id (l : List Char) (h : ∀ c ∈ l, isInvalidChar c = false) :
    l.map replInvalid = l := by
  induction l with
  | nil => rfl
  | cons a l ih =>
    rw [List.map_cons, ih (fun c hc => h c (List.mem_cons_of_mem a hc)),
      show replInvalid a = a from by simp [replInvalid, h a (List.mem_cons_self a l)]]

/-- Every list satisfying the invariant (with a short stem) is a fixed point of
`sanitizeCore`. -/
theorem sanitizeCore_fixed (l : List Char) (hs : Sanitized l)
    (hstem : (pySplitext l).1.length ≤ 200) : sanitizeCore l = l := by
  unfold sanitizeCore
  rw [if_neg hs.ne]
  show truncStem (if pyStrip (collapseSep (l.map replInvalid)) = [] then "unnamed_file".data
    else pyStrip (collapseSep (l.map replInvalid))) = l
  rw [map_replInvalid_id l hs.clean, collapseSep_fixed l hs.nospace hs.chain,
    pyStrip_fixed l hs.headOk hs.lastOk, if_neg hs.ne]
  unfold truncStem
  rw [if_neg (by omega)]
  exact pySplitext_append l

/-- C8: `sanitize_filename` is idempotent — sanitizing an already-sanitized
name changes nothing, for every input string. -/
theorem sanitize_filename_idempotent (s : String) :
    sanitize_filename (sanitize_filename s) = sanitize_filename s := by
  have h := sanitizeCore_shape s.data
  exact congrArg String.mk (sanitizeCore_fixed (sanitizeCore s.data) h.1 h.2)

theorem string_ne_empty_of_data {s : String} (h : s.data ≠ []) : s ≠ "" := by
  intro habs
  rw [habs] at h
  exact h rfl

theorem appendExt_safe (t ext : String)
    (hext : ∀ c ∈ ext.data, isInvalidChar c = false) :
    appendExtension (sanitize_filename t) ext ≠ "" ∧
    ∀ c ∈ (appendExtension (sanitize_filename t) ext).data, isInvalidChar c = false := by
  unfold appendExtension
  have hshape := sanitizeCore_shape t.data
  have hne : (sanitize_filename t).data ≠ [] := hshape.1.ne
  have kNe : (sanitize_filename t ++ ext) ≠ "" := by
    apply string_ne_empty_of_data
    rw [String.data_append]
    intro habs
    exact hne (List.append_eq_nil.mp habs).1
  have kClean : ∀ c ∈ (sanitize_filename t ++ ext).data, isInvalidChar c = false := by
    intro c hc
    rw [String.data_append] at hc
    rcases List.mem_append.mp hc with h1 | h1
    · exact hshape.1.clean c h1
    · exact hext c h1
  constructor
  · split_ifs with h
    · exact string_ne_empty_of_data hne
    · exact kNe
  · split_ifs with h
    · intro c hc
      exact hshape.1.clean c hc
    · exact kClean

/-- C7, counterexample: a template made only of recognized placeholders and a
file description whose extension field carries a disallowed character produce
a composed filename containing `'<'` — the extension is appended after
sanitization, untouched. -/
theorem generate_filename_unsafe_extension :
    validate_format_template "\x7btitle\x7d" = true ∧
    generate_filename badExtInfo "\x7btitle\x7d" = "Song.m<p3" ∧
    '<' ∈ ("Song.m<p3" : String).data := by
  refine ⟨by decide, by decide, by decide⟩

/-- C7, amended: for every template of recognized placeholders and every file
description whose extension field itself is free of disallowed characters (as
is every extension the pipeline derives from its sanitized download paths),
the composed filename is non-empty and contains none of the disallowed
characters `< > : " / \\ | ? *` — substituted values are cleaned by
sanitization, which also substitutes `unnamed_file` for an empty result. -/
theorem generate_filename_safe (fi : FileInfo) (format_template : String)
    (hfmt : validate_format_template format_template = true)
    (hext : ∀ c ∈ (fi.extension.getD "").data, isInvalidChar c = false) :
    generate_filename fi format_template ≠ "" ∧
    ∀ c ∈ (generate_filename fi format_template).data, isInvalidChar c = false := by
  unfold generate_filename
  apply appendExt_safe
  exact hext

/-- C7, witness: the safety theorem applied to the C2 scenario. -/
theorem generate_filename_safe_witness :
    generate_filename songInfo "\x7btitle\x7d - \x7bartist\x7d" ≠ "" ∧
    ∀ c ∈ (generate_filename songInfo "\x7btitle\x7d - \x7bartist\x7d").data,
      isInvalidChar c = false :=
  generate_filename_safe songInfo "\x7btitle\x7d - \x7bartist\x7d" (by decide) (by decide)

/-- C3, witness: the collision-policy theorem applied at a concrete collision. -/
theorem rename_file_collision_policy_witness :
    "movie.mp4" ∈ ["movie.mp4"] ∧
    rename_file ["movie.mp4"] "movie.mp4" ∉ ["movie.mp4"] :=
  ⟨by decide, rename_file_collision_policy.1 ["movie.mp4"] "movie.mp4"⟩
